import Mathlib

/-!
# Verification of `GO_THEORY/INTERFACES/interfaces_std.go`

Shallow embedding of the `LimitedReader` exercise (task 2 of the tutorial), of the
library pieces its `main` function uses (`strings.Reader`, `io.Copy`), of the random-byte
generator of task 1 and of the hasher of package `hashbyte`.

Conventions of the embedding

* A Go byte slice is a `List Byte`; slices are modelled with capacity equal to length.
* Go's `int` is modelled by `Int`, with `wrapInt` applied where the code does
  arithmetic (64-bit two's complement).
* A Go `error` value is an `Option GoError` (`none` is `nil`).
* A run-time panic is the `Except.error` branch of a result.
* Mutable state is passed explicitly: a method takes the receiver's state and returns
  the new one.
-/

namespace GoBasic

/-! ## Data model -/

/-- A byte, as a natural number. -/
abbrev Byte := Nat

/-- A byte slice `[]byte`. -/
abbrev Buf := List Byte

/-- Go `error` values that are not `nil`: the sentinel `io.EOF`, or any other error. -/
inductive GoError where
  | EOF
  | other (msg : String)
  deriving DecidableEq

/-- Largest value of Go's `int` (64-bit): `2^63 - 1`. -/
def maxInt : Int := 9223372036854775807

/-- Smallest value of Go's `int` (64-bit): `-2^63`. -/
def minInt : Int := -9223372036854775808

/-- Two's-complement wrap-around of an integer into the range of Go's `int`:
`(x + 2^63) mod 2^64 - 2^63`. -/
def wrapInt (x : Int) : Int :=
  (x + 9223372036854775808) % 18446744073709551616 - 9223372036854775808

/-- What a call `Read(p)` on a source gives back: the count `n`, the error `err`, the
bytes `buf` the call stored into the slice (from index 0 on), and the source's new state. -/
structure ReadResult (σ : Type) where
  n : Int
  err : Option GoError
  buf : Buf
  state : σ

/-- The interface `io.Reader` (source line 29), implemented over a state type `σ`:
`Read(p []byte) (n int, err error)`. -/
structure Reader (σ : Type) where
  Read : σ → Buf → ReadResult σ

/-- The effect on a slice `p` of a callee that stored the bytes `w` from index 0 on:
position `i` holds `w[i]` where `w` has one, and keeps `p[i]` otherwise. The length of
`p` never changes. -/
def writeInto : Buf → Buf → Buf
  | [], _ => []
  | x :: xs, [] => x :: xs
  | _ :: xs, y :: ys => y :: writeInto xs ys

/-- The slice expression `p[0:hi]`: panics unless `0 ≤ hi ≤ cap(p)`. -/
def sliceTo (p : Buf) (hi : Int) : Except String Buf :=
  if hi < 0 ∨ (p.length : Int) < hi then
    Except.error "slice bounds out of range"
  else
    Except.ok (p.take hi.toNat)

/-- The struct `LimitedReader` (source lines 299-303). -/
structure LimitedReader (σ : Type) where
  reader : Reader σ
  left : Int

/-- The constructor `LimitReader` (source lines 305-307). -/
def LimitReader {σ : Type} (r : Reader σ) (n : Int) : LimitedReader σ :=
  { reader := r, left := n }

/-- Everything observable after a call of `LimitedReader.Read`: the returned pair
`(n, err)`, the caller's buffer `p` after the call, the receiver `r` after the call, the
state `src` of the underlying source after the call, and the list `calls` of the slices
with which the underlying `Read` was invoked during the call. -/
structure ReadOutcome (σ : Type) where
  n : Int
  err : Option GoError
  p : Buf
  r : LimitedReader σ
  src : σ
  calls : List Buf

/-- The slice handed to the underlying source (source lines 313-315):
`if r.left < len(p) { p = p[0:r.left] }`. -/
def handed (left : Int) (p : Buf) : Except String Buf :=
  if left < (p.length : Int) then sliceTo p left else Except.ok p

/-- The method `LimitedReader.Read` (source lines 309-319). -/
def LimitedReader.Read {σ : Type} (r : LimitedReader σ) (src : σ) (p : Buf) :
    Except String (ReadOutcome σ) :=
  if r.left = 0 then
    Except.ok { n := 0, err := some GoError.EOF, p := p, r := r, src := src, calls := [] }
  else
    match handed r.left p with
    | Except.error e => Except.error e
    | Except.ok q =>
      let res := r.reader.Read src q
      Except.ok
        { n := res.n
          err := res.err
          p := writeInto p res.buf
          r := { reader := r.reader, left := wrapInt (r.left - res.n) }
          src := res.state
          calls := [q] }

/-- Results of successive `Read` calls on a `LimitedReader`, one buffer per call, in
order. A panic aborts the program, so the list stops there. -/
def readSeq {σ : Type} (r : LimitedReader σ) (src : σ) : List Buf → List (ReadOutcome σ)
  | [] => []
  | p :: ps =>
    match r.Read src p with
    | Except.error _ => []
    | Except.ok out => out :: readSeq out.r out.src ps

/-- The receiver and the underlying source after successive `Read` calls. -/
def afterReads {σ : Type} (r : LimitedReader σ) (src : σ) :
    List Buf → LimitedReader σ × σ
  | [] => (r, src)
  | p :: ps =>
    match r.Read src p with
    | Except.error _ => (r, src)
    | Except.ok out => afterReads out.r out.src ps

/-- A source honours the `io.Reader` contract on counts: `0 ≤ n ≤ len(p)`. -/
def Conforming {σ : Type} (R : Reader σ) : Prop :=
  ∀ (s : σ) (p : Buf), 0 ≤ (R.Read s p).n ∧ (R.Read s p).n ≤ (p.length : Int)

/-! ## Library pieces used by `main` -/

/-- State of a `strings.Reader`: the string's bytes and the read position. -/
structure StringsReader where
  s : Buf
  i : Nat

/-- The bytes of an ASCII string literal. -/
def bytesOf (str : String) : Buf := str.toList.map Char.toNat

/-- The function `strings.NewReader`. -/
def NewReader (s : Buf) : StringsReader := { s := s, i := 0 }

/-- The standard-library method `strings.Reader.Read`, which the tutorial describes at
source lines 46-55: `if r.i >= len(r.s) { return 0, io.EOF }`, otherwise
`n = copy(b, r.s[r.i:]); r.i += n; return n, nil`. -/
def StringsReader.Read (r : StringsReader) (b : Buf) : ReadResult StringsReader :=
  if r.s.length ≤ r.i then
    { n := 0, err := some GoError.EOF, buf := [], state := r }
  else
    let chunk := (r.s.drop r.i).take b.length
    { n := (chunk.length : Int), err := none, buf := chunk,
      state := { s := r.s, i := r.i + chunk.length } }

/-- A `strings.Reader` as an `io.Reader`. -/
def stringsReader : Reader StringsReader := { Read := StringsReader.Read }

/-- The stream of `main` (source line 322). -/
def mainStream : Buf := bytesOf "some io.Reader stream to be read\n"

/-- How a copy loop ends. -/
inductive CopyResult where
  | done (dst : Buf) (written : Int) (err : Option GoError)
  | panicked (msg : String)
  | outOfFuel
  deriving DecidableEq

/-- The loop of `io.Copy(dst, src)` with `src` a `LimitedReader` (source lines 219-222 and
325): read into `buf` until `Read` returns an error, append every chunk `buf[0:nr]` with
`nr > 0` to the sink `dst`, and report `io.EOF` as success. The sink accepts every write
in full. `fuel` bounds the number of iterations. -/
def Copy {σ : Type} : Nat → LimitedReader σ → σ → Buf → Buf → Int → CopyResult
  | 0, _, _, _, _, _ => CopyResult.outOfFuel
  | fuel + 1, r, src, buf, dst, written =>
    match r.Read src buf with
    | Except.error e => CopyResult.panicked e
    | Except.ok out =>
      match (if 0 < out.n then sliceTo out.p out.n else Except.ok []) with
      | Except.error e => CopyResult.panicked e
      | Except.ok chunk =>
        match out.err with
        | some e =>
          CopyResult.done (dst ++ chunk) (written + chunk.length)
            (if e = GoError.EOF then none else some e)
        | none => Copy fuel out.r out.src out.p (dst ++ chunk) (written + chunk.length)

/-- Bytes delivered by a list of `Read` results: the first `n` bytes of each buffer. -/
def collected {σ : Type} (outs : List (ReadOutcome σ)) : Buf :=
  outs.flatMap (fun out => out.p.take out.n.toNat)

/-- A buffer of `k` zero bytes, as `make([]byte, k)` allocates it. -/
def zeros (k : Nat) : Buf := List.replicate k 0

/-! ## The reader of `io.LimitReader`, for comparison -/

/-- The `Read` method of the standard library's `io.LimitReader(r, n)` reader, following
its description in the task statement (source lines 262-264): if `N <= 0` return
`(0, io.EOF)`; truncate `p` to `N` when `len(p) > N`; delegate to `R.Read`; `N -= n`.
The fields `R` and `N` are the fields `reader` and `left` of `LimitedReader`. -/
def stdLimitedRead {σ : Type} (l : LimitedReader σ) (src : σ) (p : Buf) :
    Except String (ReadOutcome σ) :=
  if l.left ≤ 0 then
    Except.ok { n := 0, err := some GoError.EOF, p := p, r := l, src := src, calls := [] }
  else
    match (if (p.length : Int) > l.left then sliceTo p l.left else Except.ok p) with
    | Except.error e => Except.error e
    | Except.ok q =>
      let res := l.reader.Read src q
      Except.ok
        { n := res.n
          err := res.err
          p := writeInto p res.buf
          r := { reader := l.reader, left := wrapInt (l.left - res.n) }
          src := res.state
          calls := [q] }

/-- Results of successive calls of `stdLimitedRead`, one buffer per call, in order; the
list stops at a panic. -/
def stdReadSeq {σ : Type} (l : LimitedReader σ) (src : σ) : List Buf → List (ReadOutcome σ)
  | [] => []
  | p :: ps =>
    match stdLimitedRead l src p with
    | Except.error _ => []
    | Except.ok out => out :: stdReadSeq out.r out.src ps

/-- The part of a `Read` result that the caller of an `io.Reader` sees, with the remaining
count: `(n, err, left)`. -/
def observed {σ : Type} (out : ReadOutcome σ) : Int × Option GoError × Int :=
  (out.n, out.err, out.r.left)

/-- A source that breaks the `io.Reader` contract on counts: it stores nothing and reports
5 bytes read, whatever the buffer. -/
def overReader : Reader Unit :=
  { Read := fun s _ => { n := 5, err := none, buf := [], state := s } }

/-! ## The random-byte generator (task 1) -/

/-- The method `Int63` of the interface `rand.Source`, over a state type `ρ`. -/
structure RandSource (ρ : Type) where
  Int63 : ρ → Int × ρ

/-- The conversion `uint64(x)` of an `int64`. -/
def uint64 (x : Int) : Nat := (x % 18446744073709551616).toNat

/-- The bytes stored by `binary.LittleEndian.PutUint64(b, v)`: `b[j] = byte(v >> (8*j))`
for `j < 8`. -/
def putUint64 (v : Nat) : Buf := (List.range 8).map (fun j => (v / 256 ^ j) % 256)

/-- The loop of the task-1 answer (source lines 142-144), started at index `i`:
`for ; i+8 < len(bytes); i += 8 { PutUint64(bytes[i:i+8], uint64(g.rnd.Int63())) }`.
`fuel` bounds the number of iterations. -/
def generatorLoop {ρ : Type} (rnd : RandSource ρ) : Nat → Nat → Buf → ρ → Buf × ρ
  | 0, _, bytes, g => (bytes, g)
  | fuel + 1, i, bytes, g =>
    if i + 8 < bytes.length then
      generatorLoop rnd fuel (i + 8)
        (bytes.take i ++ putUint64 (uint64 (rnd.Int63 g).1) ++ bytes.drop (i + 8))
        (rnd.Int63 g).2
    else
      (bytes, g)

/-- The method `generator.Read` of the task-1 answer (source lines 141-146): the slice
and the source state after the call, and the returned pair `(len(bytes), nil)`. The loop
adds 8 to `i` in each iteration, so `len(bytes)` iterations are enough. -/
def generator.Read {ρ : Type} (rnd : RandSource ρ) (g : ρ) (bytes : Buf) :
    (Buf × ρ) × Int × Option GoError :=
  (generatorLoop rnd bytes.length 0 bytes g, (bytes.length : Int), none)

/-- A random source that hands out the values of a list, in order (0 when it is used up). -/
def listSource : RandSource (List Int) :=
  { Int63 := fun vs => match vs with
      | [] => (0, [])
      | v :: rest => (v, rest) }

/-- What the task statement asks of `Read` on a slice whose length is a multiple of 8:
chunk `k` holds the little-endian encoding of the `k`-th value drawn. -/
def expectedFill {ρ : Type} (rnd : RandSource ρ) : Nat → ρ → Buf
  | 0, _ => []
  | chunks + 1, g => putUint64 (uint64 (rnd.Int63 g).1) ++ expectedFill rnd chunks (rnd.Int63 g).2

/-! ## The hasher (package `hashbyte`) -/

/-- The struct `hash` (source lines 177-179). -/
structure hashbyte.hash where
  result : Byte

/-- The constructor `New` (source lines 181-185). -/
def hashbyte.New (init : Byte) : hashbyte.hash := { result := init }

/-- The loop body of `Write` (source line 191), in `byte` arithmetic on naturals:
`h.result = (h.result^b)<<1 + b%2`. The shift and the sum are truncated to 8 bits. -/
def hashbyte.update (h b : Nat) : Nat :=
  (((h ^^^ b) * 2) % 256 + b % 2) % 256

/-- The loop `for _, b := range bytes` of `Write` (source lines 190-192). -/
def hashbyte.writeLoop : Nat → List Nat → Nat
  | h, [] => h
  | h, b :: bs => hashbyte.writeLoop (hashbyte.update h b) bs

/-- The method `hash.Write` (source lines 188-194): the receiver after the call and the
returned pair `(len(bytes), nil)`. -/
def hashbyte.hash.Write (h : hashbyte.hash) (bytes : Buf) :
    hashbyte.hash × Int × Option GoError :=
  ({ result := hashbyte.writeLoop h.result bytes }, (bytes.length : Int), none)

/-- The method `hash.Hash` (source lines 196-198). It has a value receiver, so it cannot
change the hasher: it is a function of the receiver. -/
def hashbyte.hash.Hash (h : hashbyte.hash) : Byte := h.result

/-- The step of the hash as the specification words it:
`(((h xor b) << 1) + (b mod 2)) mod 256`. -/
def hashStepSpec (h b : Nat) : Nat := (((h ^^^ b) <<< 1) + b % 2) % 256

/-! ## Basic facts -/

theorem wrapInt_of_inRange (x : Int) (h1 : minInt ≤ x) (h2 : x ≤ maxInt) : wrapInt x = x := by
  unfold minInt at h1
  unfold maxInt at h2
  unfold wrapInt
  omega

theorem length_writeInto (p w : Buf) : (writeInto p w).length = p.length := by
  induction p generalizing w with
  | nil => simp [writeInto]
  | cons x xs ih =>
    cases w with
    | nil => simp [writeInto]
    | cons y ys => simp [writeInto, ih]

theorem writeInto_eq (p w : Buf) : writeInto p w = w.take p.length ++ p.drop w.length := by
  induction p generalizing w with
  | nil => simp [writeInto]
  | cons x xs ih =>
    cases w with
    | nil => simp [writeInto]
    | cons y ys => simp [writeInto, ih]

theorem writeInto_nil (p : Buf) : writeInto p [] = p := by
  cases p <;> rfl

theorem take_writeInto (p w : Buf) (h : w.length ≤ p.length) :
    (writeInto p w).take w.length = w := by
  rw [writeInto_eq, List.take_of_length_le h, List.take_left]

theorem handed_of_nonneg (left : Int) (p : Buf) (h : 0 ≤ left) :
    handed left p = Except.ok (p.take left.toNat) := by
  unfold handed sliceTo
  by_cases hlt : left < (p.length : Int)
  · have hno : ¬ (left < 0 ∨ (p.length : Int) < left) := by omega
    simp [hlt, hno]
  · have hle : p.length ≤ left.toNat := by omega
    simp [hlt, List.take_of_length_le hle]

theorem handed_of_neg (left : Int) (p : Buf) (h : left < 0) :
    handed left p = Except.error "slice bounds out of range" := by
  unfold handed sliceTo
  have hlt : left < (p.length : Int) := by omega
  simp [hlt, h]

theorem Read_of_zero {σ : Type} (r : LimitedReader σ) (src : σ) (p : Buf) (h : r.left = 0) :
    r.Read src p =
      Except.ok { n := 0, err := some GoError.EOF, p := p, r := r, src := src, calls := [] } := by
  simp [LimitedReader.Read, h]

theorem Read_of_pos {σ : Type} (r : LimitedReader σ) (src : σ) (p : Buf) (h : 0 < r.left) :
    r.Read src p =
      Except.ok
        { n := (r.reader.Read src (p.take r.left.toNat)).n
          err := (r.reader.Read src (p.take r.left.toNat)).err
          p := writeInto p (r.reader.Read src (p.take r.left.toNat)).buf
          r := { reader := r.reader,
                 left := wrapInt (r.left - (r.reader.Read src (p.take r.left.toNat)).n) }
          src := (r.reader.Read src (p.take r.left.toNat)).state
          calls := [p.take r.left.toNat] } := by
  have hne : r.left ≠ 0 := by omega
  simp [LimitedReader.Read, hne, handed_of_nonneg r.left p (le_of_lt h)]

theorem length_take_toNat (left : Int) (p : Buf) (h : 0 ≤ left) :
    ((p.take left.toNat).length : Int) = min (p.length : Int) left := by
  rw [List.length_take]
  omega

/-! ## Facts about sequences of calls -/

theorem Read_conforming {σ : Type} (r : LimitedReader σ) (src : σ) (p : Buf)
    (hR : Conforming r.reader) (h0 : 0 ≤ r.left) (hmax : r.left ≤ maxInt) :
    ∃ out, r.Read src p = Except.ok out ∧ out.r.reader = r.reader ∧ 0 ≤ out.n ∧
      out.n ≤ (p.length : Int) ∧ out.r.left = r.left - out.n ∧ 0 ≤ out.r.left := by
  by_cases hz : r.left = 0
  · refine ⟨_, Read_of_zero r src p hz, rfl, le_refl _, ?_, ?_, ?_⟩
    · show (0 : Int) ≤ (p.length : Int)
      omega
    · show r.left = r.left - 0
      omega
    · exact h0
  · have hpos : 0 < r.left := by omega
    obtain ⟨hk0, hk1⟩ := hR src (p.take r.left.toNat)
    rw [length_take_toNat r.left p h0] at hk1
    have hkl : (r.reader.Read src (p.take r.left.toNat)).n ≤ r.left :=
      le_trans hk1 (min_le_right _ _)
    have hkp : (r.reader.Read src (p.take r.left.toNat)).n ≤ (p.length : Int) :=
      le_trans hk1 (min_le_left _ _)
    have hw : wrapInt (r.left - (r.reader.Read src (p.take r.left.toNat)).n)
        = r.left - (r.reader.Read src (p.take r.left.toNat)).n := by
      apply wrapInt_of_inRange
      · unfold minInt; omega
      · omega
    refine ⟨_, Read_of_pos r src p hpos, rfl, hk0, hkp, hw, ?_⟩
    show 0 ≤ wrapInt (r.left - (r.reader.Read src (p.take r.left.toNat)).n)
    rw [hw]
    omega

theorem readSeq_conforming {σ : Type} (R : Reader σ) (hR : Conforming R) (ps : List Buf) :
    ∀ (r : LimitedReader σ) (src : σ), r.reader = R → 0 ≤ r.left → r.left ≤ maxInt →
      (readSeq r src ps).length = ps.length ∧
      (afterReads r src ps).1.reader = R ∧
      0 ≤ (afterReads r src ps).1.left ∧
      ((readSeq r src ps).map (fun o => o.n)).sum + (afterReads r src ps).1.left = r.left ∧
      List.Chain (fun before after => 0 ≤ after ∧ after ≤ before) r.left
        ((readSeq r src ps).map (fun o => o.r.left)) := by
  induction ps with
  | nil =>
    intro r src hr h0 _
    simp [readSeq, afterReads, hr, h0]
  | cons p ps ih =>
    intro r src hr h0 hmax
    obtain ⟨out, hout, hrd, hn0, _, hleft, hl0⟩ :=
      Read_conforming r src p (hr ▸ hR) h0 hmax
    obtain ⟨h1, h2, h3, h4, h5⟩ := ih out.r out.src (hrd.trans hr) hl0 (by omega)
    simp only [readSeq, afterReads, hout, List.length_cons, List.map_cons, List.sum_cons,
      List.chain_cons]
    refine ⟨by omega, h2, h3, by omega, ⟨hl0, by omega⟩, h5⟩

theorem readSeq_of_zero {σ : Type} (qs : List Buf) (r : LimitedReader σ) (src : σ)
    (h : r.left = 0) :
    (readSeq r src qs).length = qs.length ∧
    ∀ out ∈ readSeq r src qs, out.n = 0 ∧ out.err = some GoError.EOF ∧ out.calls = [] := by
  induction qs with
  | nil => simp [readSeq]
  | cons q qs ih =>
    simp only [readSeq, Read_of_zero r src q h, List.length_cons, List.mem_cons]
    refine ⟨by omega, ?_⟩
    intro out hout
    rcases hout with rfl | hmem
    · exact ⟨rfl, rfl, rfl⟩
    · exact ih.2 out hmem

theorem readSeq_append {σ : Type} (ps qs : List Buf) :
    ∀ (r : LimitedReader σ) (src : σ), (readSeq r src ps).length = ps.length →
      readSeq r src (ps ++ qs) =
        readSeq r src ps ++ readSeq (afterReads r src ps).1 (afterReads r src ps).2 qs := by
  induction ps with
  | nil =>
    intro r src _
    simp [readSeq, afterReads]
  | cons p ps ih =>
    intro r src hlen
    cases hout : r.Read src p with
    | error e => simp [readSeq, hout] at hlen
    | ok out =>
      simp only [readSeq, hout, List.length_cons, add_left_inj] at hlen
      simp [readSeq, afterReads, hout, ih out.r out.src hlen]

theorem stringsReader_conforming : Conforming stringsReader := by
  intro s p
  unfold stringsReader StringsReader.Read
  by_cases h : s.s.length ≤ s.i
  · simp [h]
  · simp [h]

/-! ## Facts about a `LimitedReader` over a `strings.Reader` -/

theorem take_split (X : Buf) (a b : Nat) (hab : a ≤ b) :
    X.take b = X.take a ++ (X.drop (X.take a).length).take (b - (X.take a).length) := by
  by_cases h : a ≤ X.length
  · have hk : (X.take a).length = a := by simp [List.length_take, h]
    rw [hk]
    have hb : b = a + (b - a) := by omega
    conv_lhs => rw [hb, List.take_add]
  · have hX : X.length ≤ a := by omega
    rw [List.take_of_length_le hX, List.drop_of_length_le (le_refl _),
      List.take_of_length_le (le_trans hX hab)]
    simp

theorem drop_min_length (X : Buf) (a : Nat) : X.drop (min a X.length) = X.drop a := by
  by_cases h : a ≤ X.length
  · rw [min_eq_left h]
  · have hX : X.length ≤ a := by omega
    rw [min_eq_right hX, List.drop_of_length_le (le_refl _), List.drop_of_length_le hX]

theorem take_min_of_short (X : Buf) (a b : Nat) (h : X.length < b) :
    X.take (min a b) = X.take a := by
  by_cases hab : a ≤ b
  · rw [min_eq_left hab]
  · have hba : b ≤ a := by omega
    rw [min_eq_right hba, List.take_of_length_le (by omega), List.take_of_length_le (by omega)]

theorem limited_strings_Read (data : Buf) (i : Nat) (L : Int) (p : Buf)
    (hL : 0 < L) (hmax : L ≤ maxInt) :
    (LimitedReader.mk stringsReader L).Read (StringsReader.mk data i) p =
      Except.ok
        { n := (((data.drop i).take (min p.length L.toNat)).length : Int)
          err := if data.length ≤ i then some GoError.EOF else none
          p := writeInto p ((data.drop i).take (min p.length L.toNat))
          r := LimitedReader.mk stringsReader
                (L - (((data.drop i).take (min p.length L.toNat)).length : Int))
          src := StringsReader.mk data (i + ((data.drop i).take (min p.length L.toNat)).length)
          calls := [p.take L.toNat] } := by
  rw [Read_of_pos _ _ _ hL]
  have hw : ∀ k : Nat, (k : Int) ≤ L → wrapInt (L - k) = L - k := by
    intro k hk
    apply wrapInt_of_inRange
    · unfold minInt; omega
    · omega
  by_cases h : data.length ≤ i
  · have hd : data.drop i = [] := List.drop_of_length_le h
    simp [stringsReader, StringsReader.Read, h, hd, writeInto_nil]
    simpa using hw 0 (by omega)
  · simp only [stringsReader, StringsReader.Read, h, if_false, List.length_take]
    rw [min_comm L.toNat p.length, hw _ (by omega)]

theorem copy_chunk (buf c1 : Buf) (h : c1.length ≤ buf.length) :
    (if (0 : Int) < (c1.length : Int) then sliceTo (writeInto buf c1) (c1.length : Int)
      else Except.ok []) = Except.ok c1 := by
  by_cases hz : c1.length = 0
  · have : c1 = [] := List.length_eq_zero.mp hz
    subst this
    simp
  · have hpos : (0 : Int) < (c1.length : Int) := by omega
    have hno : ¬ ((c1.length : Int) < 0 ∨ ((writeInto buf c1).length : Int) < (c1.length : Int)) := by
      rw [length_writeInto]
      omega
    simp only [hpos, if_true, sliceTo, hno, if_false, Int.toNat_ofNat, take_writeInto buf c1 h]

theorem Copy_limited_strings (data : Buf) (fuel : Nat) :
    ∀ (i : Nat) (L : Int) (buf dst : Buf) (written : Int),
      0 ≤ L → L ≤ maxInt → 1 ≤ buf.length → min L.toNat (data.length - i) + 1 ≤ fuel →
      Copy fuel (LimitedReader.mk stringsReader L) (StringsReader.mk data i) buf dst written =
        CopyResult.done (dst ++ (data.drop i).take L.toNat)
          (written + (((data.drop i).take L.toNat).length : Int)) none := by
  induction fuel with
  | zero =>
    intro i L buf dst written _ _ _ hf
    omega
  | succ fuel ih =>
    intro i L buf dst written h0 hmax hbuf hf
    by_cases hz : L = 0
    · subst hz
      simp [Copy, Read_of_zero]
    · have hL : 0 < L := by omega
      have hk : ((data.drop i).take (min buf.length L.toNat)).length
          = min (min buf.length L.toNat) (data.length - i) := by
        rw [List.length_take, List.length_drop]
      have hc : ((data.drop i).take (min buf.length L.toNat)).length ≤ buf.length := by
        omega
      have hsplit := take_split (data.drop i) (min buf.length L.toNat) L.toNat (min_le_right _ _)
      simp only [Copy, limited_strings_Read data i L buf hL hmax, copy_chunk _ _ hc]
      by_cases h : data.length ≤ i
      · have hd : data.drop i = [] := List.drop_of_length_le h
        simp [h, hd]
      · simp only [h, if_false]
        rw [ih _ _ _ _ _ (by omega) (by omega) (by rw [length_writeInto]; exact hbuf)
          (by omega)]
        have hdd : List.drop (i + ((data.drop i).take (min buf.length L.toNat)).length) data
            = (data.drop i).drop ((data.drop i).take (min buf.length L.toNat)).length := by
          rw [List.drop_drop, Nat.add_comm]
        have ht : (L - (((data.drop i).take (min buf.length L.toNat)).length : Int)).toNat
            = L.toNat - ((data.drop i).take (min buf.length L.toNat)).length := by
          omega
        rw [hdd, ht, List.append_assoc, ← hsplit]
        congr 1
        rw [add_assoc]
        congr 1
        have hlen := congrArg List.length hsplit
        rw [List.length_append] at hlen
        omega

theorem strings_seq (data : Buf) (ps : List Buf) :
    ∀ (i : Nat) (L : Int), ((data.length - i : Nat) : Int) < L → L ≤ maxInt →
      (readSeq (LimitedReader.mk stringsReader L) (StringsReader.mk data i) ps).length
        = ps.length ∧
      collected (readSeq (LimitedReader.mk stringsReader L) (StringsReader.mk data i) ps)
        = (data.drop i).take (ps.map List.length).sum ∧
      afterReads (LimitedReader.mk stringsReader L) (StringsReader.mk data i) ps
        = (LimitedReader.mk stringsReader
              (L - ((min (data.length - i) (ps.map List.length).sum : Nat) : Int)),
            StringsReader.mk data (i + min (data.length - i) (ps.map List.length).sum)) := by
  induction ps with
  | nil =>
    intro i L _ _
    simp [readSeq, afterReads, collected]
  | cons p ps ih =>
    intro i L hL hmax
    have hpos : 0 < L := by omega
    have hshort : (data.drop i).length < L.toNat := by
      rw [List.length_drop]
      omega
    have hread := limited_strings_Read data i L p hpos hmax
    rw [take_min_of_short (data.drop i) p.length L.toNat hshort] at hread
    have hk : ((data.drop i).take p.length).length = min p.length (data.length - i) := by
      rw [List.length_take, List.length_drop]
    obtain ⟨h1, h2, h3⟩ := ih (i + ((data.drop i).take p.length).length)
      (L - (((data.drop i).take p.length).length : Int)) (by omega) (by omega)
    simp only [readSeq, afterReads, hread, List.length_cons, List.map_cons, List.sum_cons]
    refine ⟨by omega, ?_, ?_⟩
    · simp only [collected, List.flatMap_cons, Int.toNat_ofNat] at h2 ⊢
      rw [h2, take_writeInto p _ (by omega), List.take_add]
      congr 2
      rw [hk, ← List.drop_drop, ← List.length_drop i data, drop_min_length]
    · rw [h3]
      simp only [Prod.mk.injEq, LimitedReader.mk.injEq, StringsReader.mk.injEq, true_and]
      constructor <;> omega

theorem mainStream_take : mainStream.take 4 = bytesOf "some" := by decide

/-! ## Claims on single calls and on sequences of calls of `LimitedReader.Read` -/

/-- C1: for every limit `n ≥ 0` (a Go `int`), every conforming source and every finite
sequence of `Read` calls with arbitrary buffers on `LimitReader(source, n)`, every call
returns and the counts returned sum to at most `n`. -/
theorem C1_total_count_at_most_limit {σ : Type} (R : Reader σ) (n : Int) (s : σ)
    (ps : List Buf) (hR : Conforming R) (hn : 0 ≤ n) (hmax : n ≤ maxInt) :
    (readSeq (LimitReader R n) s ps).length = ps.length ∧
    ((readSeq (LimitReader R n) s ps).map (fun o => o.n)).sum ≤ n := by
  obtain ⟨h1, _, h3, h4, _⟩ := readSeq_conforming R hR ps (LimitReader R n) s rfl hn hmax
  refine ⟨h1, ?_⟩
  have hl : (LimitReader R n).left = n := rfl
  omega

theorem C1_total_count_at_most_limit_witness :
    Conforming stringsReader ∧ (0 : Int) ≤ 4 ∧ (4 : Int) ≤ maxInt ∧
    (readSeq (LimitReader stringsReader 4) (NewReader mainStream)
        [zeros 3, zeros 3, zeros 3]).length = [zeros 3, zeros 3, zeros 3].length ∧
    ((readSeq (LimitReader stringsReader 4) (NewReader mainStream)
        [zeros 3, zeros 3, zeros 3]).map (fun o => o.n)).sum ≤ 4 :=
  ⟨stringsReader_conforming, by decide, by decide,
    C1_total_count_at_most_limit stringsReader 4 (NewReader mainStream)
      [zeros 3, zeros 3, zeros 3] stringsReader_conforming (by decide) (by decide)⟩

/-- C2: for every limit `n ≥ 0` (a Go `int`) and every conforming source, once the counts
returned by the earlier calls (buffers `ps`) sum to `n`, each later call (buffers `qs`,
of any capacity) returns count 0 and `io.EOF` without consulting the source. -/
theorem C2_exhausted_after_limit {σ : Type} (R : Reader σ) (n : Int) (s : σ)
    (ps qs : List Buf) (hR : Conforming R) (hn : 0 ≤ n) (hmax : n ≤ maxInt)
    (hsum : ((readSeq (LimitReader R n) s ps).map (fun o => o.n)).sum = n) :
    ∃ later, readSeq (LimitReader R n) s (ps ++ qs) =
        readSeq (LimitReader R n) s ps ++ later ∧
      later.length = qs.length ∧
      ∀ out ∈ later, out.n = 0 ∧ out.err = some GoError.EOF ∧ out.calls = [] := by
  obtain ⟨h1, _, h3, h4, _⟩ := readSeq_conforming R hR ps (LimitReader R n) s rfl hn hmax
  have hl : (LimitReader R n).left = n := rfl
  have hz : (afterReads (LimitReader R n) s ps).1.left = 0 := by omega
  obtain ⟨hlen, hall⟩ := readSeq_of_zero qs (afterReads (LimitReader R n) s ps).1
    (afterReads (LimitReader R n) s ps).2 hz
  exact ⟨_, readSeq_append ps qs (LimitReader R n) s h1, hlen, hall⟩

theorem C2_exhausted_after_limit_witness :
    Conforming stringsReader ∧ (0 : Int) ≤ 4 ∧ (4 : Int) ≤ maxInt ∧
    ((readSeq (LimitReader stringsReader 4) (NewReader mainStream)
        [zeros 3, zeros 3]).map (fun o => o.n)).sum = 4 ∧
    ∃ later, readSeq (LimitReader stringsReader 4) (NewReader mainStream)
          ([zeros 3, zeros 3] ++ [zeros 1, [], zeros 2]) =
        readSeq (LimitReader stringsReader 4) (NewReader mainStream) [zeros 3, zeros 3]
          ++ later ∧
      later.length = [zeros 1, [], zeros 2].length ∧
      ∀ out ∈ later, out.n = 0 ∧ out.err = some GoError.EOF ∧ out.calls = [] :=
  ⟨stringsReader_conforming, by decide, by decide, by decide,
    C2_exhausted_after_limit stringsReader 4 (NewReader mainStream) [zeros 3, zeros 3]
      [zeros 1, [], zeros 2] stringsReader_conforming (by decide) (by decide) (by decide)⟩

/-- C3: when `left` is 0, `Read` with any buffer returns `(0, io.EOF)`, makes no call of
the underlying source's `Read`, leaves the source, the buffer and `left = 0` as they
were; in particular the first `Read` on `LimitReader(source, 0)` returns `(0, io.EOF)`
for every source `R`, every source state `s0` and every buffer. -/
theorem C3_read_with_zero_left {σ : Type} (r : LimitedReader σ) (src : σ) (p : Buf)
    (R : Reader σ) (s0 : σ) (h : r.left = 0) :
    (∃ out, r.Read src p = Except.ok out ∧ out.n = 0 ∧ out.err = some GoError.EOF ∧
        out.calls = [] ∧ out.src = src ∧ out.p = p ∧ out.r.left = 0 ∧
        out.r.reader = r.reader) ∧
    (∃ out, (LimitReader R 0).Read s0 p = Except.ok out ∧ out.n = 0 ∧
        out.err = some GoError.EOF ∧ out.calls = [] ∧ out.r.left = 0) := by
  constructor
  · exact ⟨_, Read_of_zero r src p h, rfl, rfl, rfl, rfl, rfl, h, rfl⟩
  · exact ⟨_, Read_of_zero (LimitReader R 0) s0 p rfl, rfl, rfl, rfl, rfl⟩

theorem C3_read_with_zero_left_witness :
    (LimitReader stringsReader 0).left = 0 ∧
    ∃ out, (LimitReader stringsReader 0).Read (NewReader mainStream) (zeros 4) =
        Except.ok out ∧ out.n = 0 ∧ out.err = some GoError.EOF ∧ out.calls = [] ∧
      out.src = NewReader mainStream ∧ out.p = zeros 4 ∧ out.r.left = 0 ∧
      out.r.reader = (LimitReader stringsReader 0).reader :=
  ⟨rfl, (C3_read_with_zero_left (LimitReader stringsReader 0) (NewReader mainStream)
    (zeros 4) stringsReader (NewReader mainStream) rfl).1⟩

/-- C4: with `0 < left` (a Go `int`), if the underlying `Read` on the handed slice returns
a count `k` with `0 ≤ k` (a Go `int`), then `Read` returns that `k` and afterwards `left`
is its previous value minus exactly `k`, whatever the length of the handed slice. -/
theorem C4_left_decreases_by_count {σ : Type} (r : LimitedReader σ) (src : σ) (p : Buf)
    (k : Int) (hpos : 0 < r.left) (hmax : r.left ≤ maxInt)
    (hk : (r.reader.Read src (p.take r.left.toNat)).n = k)
    (hk0 : 0 ≤ k) (hk1 : k ≤ maxInt) :
    ∃ out, r.Read src p = Except.ok out ∧ out.calls = [p.take r.left.toNat] ∧
      out.n = k ∧ out.r.left = r.left - k := by
  refine ⟨_, Read_of_pos r src p hpos, rfl, hk, ?_⟩
  show wrapInt (r.left - (r.reader.Read src (p.take r.left.toNat)).n) = r.left - k
  rw [hk]
  apply wrapInt_of_inRange
  · unfold minInt; unfold maxInt at hk1; omega
  · omega

theorem C4_left_decreases_by_count_witness :
    0 < (LimitReader stringsReader 10).left ∧ (LimitReader stringsReader 10).left ≤ maxInt ∧
    ((zeros 4).take (LimitReader stringsReader 10).left.toNat).length = 4 ∧
    ((LimitReader stringsReader 10).reader.Read (NewReader (bytesOf "ab"))
        ((zeros 4).take (LimitReader stringsReader 10).left.toNat)).n = 2 ∧
    (0 : Int) ≤ 2 ∧ (2 : Int) ≤ maxInt ∧
    ∃ out, (LimitReader stringsReader 10).Read (NewReader (bytesOf "ab")) (zeros 4) =
        Except.ok out ∧
      out.calls = [(zeros 4).take (LimitReader stringsReader 10).left.toNat] ∧
      out.n = 2 ∧ out.r.left = (LimitReader stringsReader 10).left - 2 :=
  ⟨by decide, by decide, by decide, by decide, by decide, by decide,
    C4_left_decreases_by_count (LimitReader stringsReader 10) (NewReader (bytesOf "ab"))
      (zeros 4) 2 (by decide) (by decide) (by decide) (by decide) (by decide)⟩

/-- C5: with `0 < left` and a buffer of capacity `C`, `Read` calls the underlying source
exactly once, with the prefix of the caller's buffer of length `min(C, left)`; this is the
whole buffer when `C ≤ left`, and its length never exceeds `left`. -/
theorem C5_handed_slice {σ : Type} (r : LimitedReader σ) (src : σ) (p : Buf)
    (hpos : 0 < r.left) :
    ∃ out q, r.Read src p = Except.ok out ∧ out.calls = [q] ∧
      q = p.take r.left.toNat ∧ q <+: p ∧
      (q.length : Int) = min (p.length : Int) r.left ∧
      ((p.length : Int) ≤ r.left → q = p) ∧
      (q.length : Int) ≤ r.left := by
  refine ⟨_, p.take r.left.toNat, Read_of_pos r src p hpos, rfl, rfl,
    List.take_prefix _ _, length_take_toNat r.left p (le_of_lt hpos), ?_, ?_⟩
  · intro hle
    apply List.take_of_length_le
    omega
  · rw [length_take_toNat r.left p (le_of_lt hpos)]
    exact min_le_right _ _

theorem C5_handed_slice_witness :
    0 < (LimitReader stringsReader 4).left ∧
    ∃ out q, (LimitReader stringsReader 4).Read (NewReader mainStream) (zeros 8) =
        Except.ok out ∧ out.calls = [q] ∧
      q = (zeros 8).take (LimitReader stringsReader 4).left.toNat ∧ q <+: zeros 8 ∧
      (q.length : Int) = min ((zeros 8).length : Int) (LimitReader stringsReader 4).left ∧
      (((zeros 8).length : Int) ≤ (LimitReader stringsReader 4).left → q = zeros 8) ∧
      (q.length : Int) ≤ (LimitReader stringsReader 4).left :=
  ⟨by decide, C5_handed_slice (LimitReader stringsReader 4) (NewReader mainStream) (zeros 8)
    (by decide)⟩

/-- C6: with `0 < left`, the pair `(count, error)` returned by `Read` is exactly the pair
the underlying source's `Read` returned on the handed slice in the same call; and for any
`left`, a returning `Read` either has `left ≠ 0` and relays the source's pair, or has
`left = 0`, did not consult the source, and returns `(0, io.EOF)`. -/
theorem C6_relays_source_result {σ : Type} (r : LimitedReader σ) (src : σ) (p : Buf) :
    (0 < r.left → ∃ out, r.Read src p = Except.ok out ∧
        out.calls = [p.take r.left.toNat] ∧
        out.n = (r.reader.Read src (p.take r.left.toNat)).n ∧
        out.err = (r.reader.Read src (p.take r.left.toNat)).err) ∧
    (∀ out, r.Read src p = Except.ok out →
        (r.left ≠ 0 → ∃ q, out.calls = [q] ∧ out.n = (r.reader.Read src q).n ∧
            out.err = (r.reader.Read src q).err) ∧
        (r.left = 0 → out.calls = [] ∧ out.n = 0 ∧ out.err = some GoError.EOF)) := by
  constructor
  · intro hpos
    exact ⟨_, Read_of_pos r src p hpos, rfl, rfl, rfl⟩
  · intro out hout
    constructor
    · intro hne
      rcases lt_or_gt_of_ne hne with hneg | hpos
      · simp [LimitedReader.Read, hne, handed_of_neg r.left p hneg] at hout
      · rw [Read_of_pos r src p hpos] at hout
        cases hout
        exact ⟨_, rfl, rfl, rfl⟩
    · intro h0
      rw [Read_of_zero r src p h0] at hout
      cases hout
      exact ⟨rfl, rfl, rfl⟩

theorem C6_relays_source_result_witness :
    0 < (LimitReader stringsReader 4).left ∧
    ∃ out, (LimitReader stringsReader 4).Read (NewReader mainStream) (zeros 8) =
        Except.ok out ∧
      out.calls = [(zeros 8).take (LimitReader stringsReader 4).left.toNat] ∧
      out.n = ((LimitReader stringsReader 4).reader.Read (NewReader mainStream)
        ((zeros 8).take (LimitReader stringsReader 4).left.toNat)).n ∧
      out.err = ((LimitReader stringsReader 4).reader.Read (NewReader mainStream)
        ((zeros 8).take (LimitReader stringsReader 4).left.toNat)).err :=
  ⟨by decide, (C6_relays_source_result (LimitReader stringsReader 4) (NewReader mainStream)
    (zeros 8)).1 (by decide)⟩

/-- C7: for a `LimitedReader` created with limit `n ≥ 0` (a Go `int`) over a conforming
source, every `Read` call of any sequence returns, and after each call `left` is `≥ 0`
and `≤` its value before that call (the chain starts at `n`). -/
theorem C7_left_nonneg_nonincreasing {σ : Type} (R : Reader σ) (n : Int) (s : σ)
    (ps : List Buf) (hR : Conforming R) (hn : 0 ≤ n) (hmax : n ≤ maxInt) :
    (readSeq (LimitReader R n) s ps).length = ps.length ∧
    List.Chain (fun before after => 0 ≤ after ∧ after ≤ before) n
      ((readSeq (LimitReader R n) s ps).map (fun o => o.r.left)) := by
  obtain ⟨h1, _, _, _, h5⟩ := readSeq_conforming R hR ps (LimitReader R n) s rfl hn hmax
  exact ⟨h1, h5⟩

theorem C7_left_nonneg_nonincreasing_witness :
    Conforming stringsReader ∧ (0 : Int) ≤ 4 ∧ (4 : Int) ≤ maxInt ∧
    (readSeq (LimitReader stringsReader 4) (NewReader mainStream)
        [zeros 3, zeros 3, zeros 3]).length = [zeros 3, zeros 3, zeros 3].length ∧
    List.Chain (fun before after => 0 ≤ after ∧ after ≤ before) 4
      ((readSeq (LimitReader stringsReader 4) (NewReader mainStream)
        [zeros 3, zeros 3, zeros 3]).map (fun o => o.r.left)) :=
  ⟨stringsReader_conforming, by decide, by decide,
    C7_left_nonneg_nonincreasing stringsReader 4 (NewReader mainStream)
      [zeros 3, zeros 3, zeros 3] stringsReader_conforming (by decide) (by decide)⟩

/-! ## Claims on the scenario of `main` and on short sources -/

/-- C8: with a `strings.Reader` over the stream of `main` and limit 4, the first `Read`
with any buffer of capacity at least 4 returns count 4 (with a nil error) and stores
exactly the bytes of "some" in the first 4 positions, the rest of the buffer being
untouched; the next `Read`, with any buffer, returns `(0, io.EOF)`. -/
theorem C8_first_read_some (p : Buf) (hp : 4 ≤ p.length) :
    ∃ out, (LimitReader stringsReader 4).Read (NewReader mainStream) p = Except.ok out ∧
      out.n = 4 ∧ out.err = none ∧ out.p.take 4 = bytesOf "some" ∧
      out.p = bytesOf "some" ++ p.drop 4 ∧
      ∀ q : Buf, ∃ next, out.r.Read out.src q = Except.ok next ∧ next.n = 0 ∧
        next.err = some GoError.EOF := by
  have hmin : min p.length (4 : Int).toNat = 4 := by
    have : (4 : Int).toNat = 4 := rfl
    omega
  have hread := limited_strings_Read mainStream 0 4 p (by decide) (by decide)
  rw [List.drop_zero, hmin, mainStream_take] at hread
  refine ⟨_, hread, rfl, rfl, ?_, ?_, ?_⟩
  · exact take_writeInto p (bytesOf "some") hp
  · rw [writeInto_eq]
    have h4 : (bytesOf "some").length = 4 := rfl
    rw [h4, List.take_of_length_le (by omega)]
  · intro q
    exact ⟨_, Read_of_zero _ _ q rfl, rfl, rfl⟩

theorem C8_first_read_some_witness :
    4 ≤ (zeros 8).length ∧
    ∃ out, (LimitReader stringsReader 4).Read (NewReader mainStream) (zeros 8) =
        Except.ok out ∧
      out.n = 4 ∧ out.err = none ∧ out.p.take 4 = bytesOf "some" ∧
      out.p = bytesOf "some" ++ (zeros 8).drop 4 ∧
      ∀ q : Buf, ∃ next, out.r.Read out.src q = Except.ok next ∧ next.n = 0 ∧
        next.err = some GoError.EOF :=
  ⟨by decide, C8_first_read_some (zeros 8) (by decide)⟩

/-- C9: the `io.Copy` loop from `LimitReader(strings.NewReader(stream of main), 4)` to an
empty sink, with any copy buffer of positive capacity and any fuel of at least 5
iterations, terminates without error, and the sink holds exactly the 4 bytes of "some";
4 bytes are reported as written. -/
theorem C9_copy_outputs_some (fuel : Nat) (buf : Buf) (hbuf : 1 ≤ buf.length)
    (hfuel : 5 ≤ fuel) :
    Copy fuel (LimitReader stringsReader 4) (NewReader mainStream) buf [] 0 =
      CopyResult.done (bytesOf "some") 4 none := by
  have h := Copy_limited_strings mainStream fuel 0 4 buf [] 0 (by decide) (by decide) hbuf
    (by
      have : (4 : Int).toNat = 4 := rfl
      omega)
  have h4 : (4 : Int).toNat = 4 := rfl
  rw [List.drop_zero, h4, mainStream_take] at h
  exact h

theorem C9_copy_outputs_some_witness :
    1 ≤ (zeros 8).length ∧ 5 ≤ 5 ∧
    Copy 5 (LimitReader stringsReader 4) (NewReader mainStream) (zeros 8) [] 0 =
      CopyResult.done (bytesOf "some") 4 none :=
  ⟨by decide, by decide, C9_copy_outputs_some 5 (zeros 8) (by decide) (by decide)⟩

/-- C10: for a `strings.Reader` over any `m` bytes `data` and any limit `n > m` (a Go
`int`), reading the `LimitedReader` with buffers `ps` whose capacities sum to at least `m`
makes every call return and delivers exactly `data`, in order; the `Read` made after that,
with any buffer `q`, consults the source, which answers `(0, io.EOF)`, and returns that
`(0, io.EOF)` with the buffer unchanged while `left` is `n - m > 0`; and whatever further
reads `qs` follow, the bytes delivered are still exactly `data`. -/
theorem C10_short_source_relayed (data : Buf) (n : Int) (ps qs : List Buf) (q : Buf)
    (hn : (data.length : Int) < n) (hmax : n ≤ maxInt)
    (hall : data.length ≤ (ps.map List.length).sum) :
    (readSeq (LimitReader stringsReader n) (NewReader data) ps).length = ps.length ∧
    collected (readSeq (LimitReader stringsReader n) (NewReader data) ps) = data ∧
    (∃ out h,
      (afterReads (LimitReader stringsReader n) (NewReader data) ps).1.Read
        (afterReads (LimitReader stringsReader n) (NewReader data) ps).2 q = Except.ok out ∧
      out.n = 0 ∧ out.err = some GoError.EOF ∧ out.calls = [h] ∧
      (stringsReader.Read (afterReads (LimitReader stringsReader n) (NewReader data) ps).2 h).n
        = 0 ∧
      (stringsReader.Read (afterReads (LimitReader stringsReader n) (NewReader data) ps).2 h).err
        = some GoError.EOF ∧
      out.p = q ∧ out.r.left = n - (data.length : Int) ∧ 0 < out.r.left) ∧
    collected (readSeq (LimitReader stringsReader n) (NewReader data) (ps ++ qs)) = data := by
  have hinv : (((data.length - 0 : Nat) : Int)) < n := by
    simpa using hn
  obtain ⟨h1, h2, h3⟩ := strings_seq data ps 0 n hinv hmax
  obtain ⟨_, h2q, _⟩ := strings_seq data (ps ++ qs) 0 n hinv hmax
  have hr : LimitReader stringsReader n = LimitedReader.mk stringsReader n := rfl
  have hs : NewReader data = StringsReader.mk data 0 := rfl
  rw [hr, hs]
  refine ⟨h1, ?_, ?_, ?_⟩
  · rw [h2, List.drop_zero, List.take_of_length_le hall]
  · have hm : min (data.length - 0) (ps.map List.length).sum = data.length := by
      simp only [Nat.sub_zero]
      exact min_eq_left hall
    rw [h3, hm, Nat.zero_add]
    have hread := limited_strings_Read data data.length (n - (data.length : Int)) q
      (by omega) (by omega)
    rw [List.drop_of_length_le (le_refl _)] at hread
    simp only [List.take_nil, List.length_nil, le_refl, if_true, writeInto_nil] at hread
    refine ⟨_, _, hread, rfl, rfl, rfl, ?_, ?_, rfl, ?_, ?_⟩
    · simp [stringsReader, StringsReader.Read]
    · simp [stringsReader, StringsReader.Read]
    · show n - (data.length : Int) - ((0 : Nat) : Int) = n - (data.length : Int)
      simp
    · show 0 < n - (data.length : Int) - ((0 : Nat) : Int)
      simp only [Nat.cast_zero, sub_zero]
      omega
  · rw [h2q, List.drop_zero, List.take_of_length_le]
    simp only [List.map_append, List.sum_append]
    omega

theorem C10_short_source_relayed_witness :
    (((bytesOf "stream").length : Nat) : Int) < 10 ∧ (10 : Int) ≤ maxInt ∧
    (bytesOf "stream").length ≤ ([zeros 4, zeros 4].map List.length).sum ∧
    (readSeq (LimitReader stringsReader 10) (NewReader (bytesOf "stream"))
        [zeros 4, zeros 4]).length = [zeros 4, zeros 4].length ∧
    collected (readSeq (LimitReader stringsReader 10) (NewReader (bytesOf "stream"))
        [zeros 4, zeros 4]) = bytesOf "stream" ∧
    collected (readSeq (LimitReader stringsReader 10) (NewReader (bytesOf "stream"))
        ([zeros 4, zeros 4] ++ [zeros 4])) = bytesOf "stream" :=
  have h := C10_short_source_relayed (bytesOf "stream") 10 [zeros 4, zeros 4] [zeros 4]
    (zeros 4) (by decide) (by decide) (by decide)
  ⟨by decide, by decide, by decide, h.1, h.2.1, h.2.2.2⟩

/-! ## Further facts used by the claims on edge cases -/

theorem afterReads_conforming {σ : Type} (R : Reader σ) (hR : Conforming R) (ps : List Buf) :
    ∀ (r : LimitedReader σ) (src : σ), r.reader = R → 0 ≤ r.left → r.left ≤ maxInt →
      (afterReads r src ps).1.reader = R ∧ 0 ≤ (afterReads r src ps).1.left ∧
      (afterReads r src ps).1.left ≤ r.left := by
  induction ps with
  | nil =>
    intro r src hr h0 _
    simp [afterReads, hr, h0]
  | cons p ps ih =>
    intro r src hr h0 hmax
    obtain ⟨out, hout, hrd, hn0, _, hleft, hl0⟩ :=
      Read_conforming r src p (hr ▸ hR) h0 hmax
    obtain ⟨h1, h2, h3⟩ := ih out.r out.src (hrd.trans hr) hl0 (by omega)
    simp only [afterReads, hout]
    exact ⟨h1, h2, by omega⟩

theorem getElem?_writeInto (p w : Buf) (i : Nat) (h : w.length ≤ i) :
    (writeInto p w)[i]? = p[i]? := by
  induction p generalizing w i with
  | nil => simp [writeInto]
  | cons x xs ih =>
    cases w with
    | nil => simp [writeInto]
    | cons y ys =>
      cases i with
      | zero => simp at h
      | succ j =>
        simp only [writeInto, List.getElem?_cons_succ]
        exact ih ys j (by simpa using h)

theorem Read_of_neg {σ : Type} (r : LimitedReader σ) (src : σ) (p : Buf) (h : r.left < 0) :
    r.Read src p = Except.error "slice bounds out of range" := by
  have hne : r.left ≠ 0 := by omega
  simp [LimitedReader.Read, hne, handed_of_neg r.left p h]

theorem stringsReader_writes_inside (s : StringsReader) (q : Buf) :
    (stringsReader.Read s q).buf.length ≤ q.length := by
  unfold stringsReader StringsReader.Read
  by_cases h : s.s.length ≤ s.i
  · simp [h]
  · simp only [h, if_false, List.length_take]
    omega

/-! ## Claims on edge cases, frame conditions and safety of `LimitedReader.Read` -/

/-- C11: with `0 < left` (a Go `int`) and an underlying source that answers a `Read` of an
empty buffer with `(0, nil)`, `Read` with a zero-capacity buffer consults the source with
that empty buffer and returns `(0, nil)`, not `io.EOF`, and `left` is unchanged. -/
theorem C11_zero_capacity_buffer {σ : Type} (r : LimitedReader σ) (src : σ)
    (hpos : 0 < r.left) (hmax : r.left ≤ maxInt)
    (hn : (r.reader.Read src []).n = 0) (he : (r.reader.Read src []).err = none) :
    ∃ out, r.Read src [] = Except.ok out ∧ out.n = 0 ∧ out.err = none ∧
      out.err ≠ some GoError.EOF ∧ out.calls = [[]] ∧ out.p = [] ∧
      out.r.left = r.left := by
  have h := Read_of_pos r src [] hpos
  simp only [List.take_nil] at h
  refine ⟨_, h, hn, he, ?_, rfl, rfl, ?_⟩
  · show (r.reader.Read src []).err ≠ some GoError.EOF
    rw [he]
    exact fun hc => Option.noConfusion hc
  · show wrapInt (r.left - (r.reader.Read src []).n) = r.left
    rw [hn, sub_zero]
    apply wrapInt_of_inRange
    · unfold minInt; omega
    · exact hmax

theorem C11_zero_capacity_buffer_witness :
    0 < (LimitReader stringsReader 4).left ∧ (LimitReader stringsReader 4).left ≤ maxInt ∧
    ((LimitReader stringsReader 4).reader.Read (NewReader mainStream) []).n = 0 ∧
    ((LimitReader stringsReader 4).reader.Read (NewReader mainStream) []).err = none ∧
    ∃ out, (LimitReader stringsReader 4).Read (NewReader mainStream) [] = Except.ok out ∧
      out.n = 0 ∧ out.err = none ∧ out.err ≠ some GoError.EOF ∧ out.calls = [[]] ∧
      out.p = [] ∧ out.r.left = (LimitReader stringsReader 4).left :=
  ⟨by decide, by decide, by decide, by decide,
    C11_zero_capacity_buffer (LimitReader stringsReader 4) (NewReader mainStream)
      (by decide) (by decide) (by decide) (by decide)⟩

/-- C12: for every `LimitedReader` state and buffer, a `Read` that returns leaves the field
`reader` as it was (only `left` can differ); with `left = 0` the source is not consulted and
its state is unchanged, and with `left ≠ 0` the source's state after the call is the state
produced by its single delegated `Read` on the handed slice. `Read` returns whenever
`0 ≤ left`, and with `left < 0` it panics, producing no new state at all. -/
theorem C12_frame_of_read {σ : Type} (r : LimitedReader σ) (src : σ) (p : Buf) :
    (0 ≤ r.left → ∃ out, r.Read src p = Except.ok out) ∧
    (r.left < 0 → ∃ e, r.Read src p = Except.error e) ∧
    (∀ out, r.Read src p = Except.ok out →
      out.r.reader = r.reader ∧
      (r.left = 0 → out.src = src ∧ out.calls = []) ∧
      (r.left ≠ 0 → ∃ q, handed r.left p = Except.ok q ∧ out.calls = [q] ∧
          out.src = (r.reader.Read src q).state)) := by
  refine ⟨?_, ?_, ?_⟩
  · intro h0
    by_cases hz : r.left = 0
    · exact ⟨_, Read_of_zero r src p hz⟩
    · exact ⟨_, Read_of_pos r src p (by omega)⟩
  · intro hneg
    exact ⟨_, Read_of_neg r src p hneg⟩
  · intro out hout
    by_cases hz : r.left = 0
    · rw [Read_of_zero r src p hz] at hout
      cases hout
      exact ⟨rfl, fun _ => ⟨rfl, rfl⟩, fun hne => absurd hz hne⟩
    · rcases lt_or_gt_of_ne hz with hneg | hpos
      · rw [Read_of_neg r src p hneg] at hout
        cases hout
      · rw [Read_of_pos r src p hpos] at hout
        cases hout
        exact ⟨rfl, fun h0 => absurd h0 hz,
          fun _ => ⟨_, handed_of_nonneg r.left p (le_of_lt hpos), rfl, rfl⟩⟩

theorem C12_frame_of_read_witness :
    0 ≤ (LimitReader stringsReader 4).left ∧
    ∃ out, (LimitReader stringsReader 4).Read (NewReader mainStream) (zeros 8) =
      Except.ok out ∧ out.r.reader = (LimitReader stringsReader 4).reader ∧
      ∃ q, handed (LimitReader stringsReader 4).left (zeros 8) = Except.ok q ∧
        out.calls = [q] ∧
        out.src = ((LimitReader stringsReader 4).reader.Read (NewReader mainStream) q).state :=
  have h := C12_frame_of_read (LimitReader stringsReader 4) (NewReader mainStream) (zeros 8)
  ⟨by decide, (h.1 (by decide)).elim (fun out hout =>
    ⟨out, hout, (h.2.2 out hout).1, (h.2.2 out hout).2.2 (by decide)⟩)⟩

/-- C16: for every limit `n ≥ 0` (a Go `int`), every conforming source and every sequence
of `Read` calls with arbitrary buffers, no call panics; before each call (here the call
with buffer `p`, after the calls with buffers `pre`) `left` is `≥ 0`, so whenever the slice
expression `p[0:r.left]` is evaluated (`left < len(p)`) it is within bounds and yields the
prefix of length `left`. -/
theorem C16_slice_within_bounds {σ : Type} (R : Reader σ) (n : Int) (s : σ)
    (pre : List Buf) (p : Buf) (post : List Buf)
    (hR : Conforming R) (hn : 0 ≤ n) (hmax : n ≤ maxInt) :
    (readSeq (LimitReader R n) s (pre ++ p :: post)).length = (pre ++ p :: post).length ∧
    0 ≤ (afterReads (LimitReader R n) s pre).1.left ∧
    ((afterReads (LimitReader R n) s pre).1.left < (p.length : Int) →
      (afterReads (LimitReader R n) s pre).1.left ≤ (p.length : Int) ∧
      sliceTo p (afterReads (LimitReader R n) s pre).1.left =
        Except.ok (p.take (afterReads (LimitReader R n) s pre).1.left.toNat)) ∧
    ∃ out, (afterReads (LimitReader R n) s pre).1.Read
      (afterReads (LimitReader R n) s pre).2 p = Except.ok out := by
  obtain ⟨hlen, _⟩ := readSeq_conforming R hR (pre ++ p :: post) (LimitReader R n) s rfl hn hmax
  obtain ⟨hr, h0, hle⟩ := afterReads_conforming R hR pre (LimitReader R n) s rfl hn hmax
  have hl : (LimitReader R n).left = n := rfl
  refine ⟨hlen, h0, ?_, ?_⟩
  · intro hlt
    refine ⟨le_of_lt hlt, ?_⟩
    have hno : ¬ ((afterReads (LimitReader R n) s pre).1.left < 0 ∨
        (p.length : Int) < (afterReads (LimitReader R n) s pre).1.left) := by omega
    simp [sliceTo, hno]
  · obtain ⟨out, hout, _⟩ := Read_conforming (afterReads (LimitReader R n) s pre).1
      (afterReads (LimitReader R n) s pre).2 p (by rw [hr]; exact hR) h0 (by omega)
    exact ⟨out, hout⟩

theorem C16_slice_within_bounds_witness :
    Conforming stringsReader ∧ (0 : Int) ≤ 4 ∧ (4 : Int) ≤ maxInt ∧
    (readSeq (LimitReader stringsReader 4) (NewReader mainStream)
      ([zeros 3] ++ zeros 3 :: [zeros 3])).length = ([zeros 3] ++ zeros 3 :: [zeros 3]).length ∧
    0 ≤ (afterReads (LimitReader stringsReader 4) (NewReader mainStream) [zeros 3]).1.left :=
  have h := C16_slice_within_bounds stringsReader 4 (NewReader mainStream) [zeros 3] (zeros 3)
    [zeros 3] stringsReader_conforming (by decide) (by decide)
  ⟨stringsReader_conforming, by decide, by decide, h.1, h.2.1⟩

/-- C17: for every `LimitedReader` with `left < 0` and every buffer, `Read` skips the
`left == 0` branch, takes the truncation branch (`left < len(p)`), where the slice expression
`p[0:r.left]` panics; the call ends with that slice-bounds panic whatever the underlying
source and its state are (it is not consulted), and so returns nothing, in particular not
`(0, io.EOF)`. -/
theorem C17_negative_left_panics {σ : Type} (r : LimitedReader σ) (src : σ) (p : Buf)
    (hneg : r.left < 0) :
    r.left ≠ 0 ∧ r.left < (p.length : Int) ∧
    sliceTo p r.left = Except.error "slice bounds out of range" ∧
    r.Read src p = Except.error "slice bounds out of range" ∧
    (∀ (R2 : Reader σ) (src2 : σ),
      (LimitedReader.mk R2 r.left).Read src2 p = Except.error "slice bounds out of range") ∧
    (∀ out, r.Read src p ≠ Except.ok out) := by
  refine ⟨by omega, by omega, ?_, Read_of_neg r src p hneg, ?_, ?_⟩
  · simp [sliceTo, hneg]
  · intro R2 src2
    exact Read_of_neg (LimitedReader.mk R2 r.left) src2 p hneg
  · intro out hout
    rw [Read_of_neg r src p hneg] at hout
    cases hout

theorem C17_negative_left_panics_witness :
    (LimitReader stringsReader (-1)).left < 0 ∧
    (LimitReader stringsReader (-1)).Read (NewReader mainStream) (zeros 8) =
      Except.error "slice bounds out of range" :=
  ⟨by decide, (C17_negative_left_panics (LimitReader stringsReader (-1))
    (NewReader mainStream) (zeros 8) (by decide)).2.2.2.1⟩

/-- C18: for every `LimitedReader` with `left ≥ 0`, every buffer of capacity `C` and every
underlying source that stores bytes only inside the slice it is handed, `Read` returns and
leaves the buffer's length and every element at an index `i ≥ min(C, left)` unchanged. -/
theorem C18_tail_of_buffer_unchanged {σ : Type} (r : LimitedReader σ) (src : σ) (p : Buf)
    (i : Nat) (h0 : 0 ≤ r.left)
    (hw : ∀ (s : σ) (q : Buf), (r.reader.Read s q).buf.length ≤ q.length)
    (hi : min (p.length : Int) r.left ≤ (i : Int)) :
    ∃ out, r.Read src p = Except.ok out ∧ out.p.length = p.length ∧ out.p[i]? = p[i]? := by
  by_cases hz : r.left = 0
  · exact ⟨_, Read_of_zero r src p hz, rfl, rfl⟩
  · have hpos : 0 < r.left := by omega
    refine ⟨_, Read_of_pos r src p hpos, length_writeInto _ _, ?_⟩
    apply getElem?_writeInto
    have h1 := hw src (p.take r.left.toNat)
    have h2 := length_take_toNat r.left p h0
    omega

theorem C18_tail_of_buffer_unchanged_witness :
    0 ≤ (LimitReader stringsReader 4).left ∧
    (∀ (s : StringsReader) (q : Buf),
      ((LimitReader stringsReader 4).reader.Read s q).buf.length ≤ q.length) ∧
    min ((zeros 8).length : Int) (LimitReader stringsReader 4).left ≤ ((5 : Nat) : Int) ∧
    ∃ out, (LimitReader stringsReader 4).Read (NewReader mainStream) (zeros 8) =
      Except.ok out ∧ out.p.length = (zeros 8).length ∧ out.p[5]? = (zeros 8)[5]? :=
  ⟨by decide, stringsReader_writes_inside, by decide,
    C18_tail_of_buffer_unchanged (LimitReader stringsReader 4) (NewReader mainStream) (zeros 8)
      5 (by decide) stringsReader_writes_inside (by decide)⟩

/-! ## Facts for the comparison with `io.LimitReader` -/

theorem Read_eq_std {σ : Type} (r : LimitedReader σ) (src : σ) (p : Buf) (h : 0 ≤ r.left) :
    r.Read src p = stdLimitedRead r src p := by
  by_cases hz : r.left = 0
  · simp [LimitedReader.Read, stdLimitedRead, hz]
  · have hpos : ¬ r.left ≤ 0 := by omega
    simp only [LimitedReader.Read, stdLimitedRead, handed, hz, hpos, if_false, gt_iff_lt]

theorem std_returns {σ : Type} (l : LimitedReader σ) (src : σ) (p : Buf) :
    ∃ out, stdLimitedRead l src p = Except.ok out := by
  by_cases hz : l.left ≤ 0
  · refine ⟨⟨0, some GoError.EOF, p, l, src, []⟩, ?_⟩
    simp [stdLimitedRead, hz]
  · have h0 : 0 ≤ l.left := by omega
    have hh := handed_of_nonneg l.left p h0
    unfold handed at hh
    simp only [stdLimitedRead, hz, if_false, gt_iff_lt, hh]
    exact ⟨_, rfl⟩

theorem length_stdReadSeq {σ : Type} (ps : List Buf) :
    ∀ (l : LimitedReader σ) (src : σ), (stdReadSeq l src ps).length = ps.length := by
  induction ps with
  | nil => intro l src; rfl
  | cons p ps ih =>
    intro l src
    obtain ⟨out, hout⟩ := std_returns l src p
    simp [stdReadSeq, hout, ih]

theorem readSeq_eq_std {σ : Type} (ps : List Buf) :
    ∀ (r : LimitedReader σ) (src : σ), 0 ≤ r.left →
      (∀ out ∈ (stdReadSeq r src ps).dropLast, 0 ≤ out.r.left) →
      readSeq r src ps = stdReadSeq r src ps := by
  induction ps with
  | nil => intro r src _ _; rfl
  | cons p ps ih =>
    intro r src h0 hall
    obtain ⟨out, hout⟩ := std_returns r src p
    have hex : r.Read src p = Except.ok out := by rw [Read_eq_std r src p h0, hout]
    cases ps with
    | nil => simp only [readSeq, stdReadSeq, hex, hout]
    | cons p2 ps2 =>
      obtain ⟨out2, hout2⟩ := std_returns out.r out.src p2
      have hrest : stdReadSeq out.r out.src (p2 :: ps2) =
          out2 :: stdReadSeq out2.r out2.src ps2 := by
        simp only [stdReadSeq, hout2]
      have hseq : stdReadSeq r src (p :: p2 :: ps2) =
          out :: out2 :: stdReadSeq out2.r out2.src ps2 := by
        simp only [stdReadSeq, hout, hout2]
      rw [hseq, List.dropLast_cons₂] at hall
      have hhead : 0 ≤ out.r.left := hall out (List.mem_cons_self _ _)
      have htail : ∀ o ∈ (stdReadSeq out.r out.src (p2 :: ps2)).dropLast, 0 ≤ o.r.left := by
        intro o ho
        rw [hrest] at ho
        exact hall o (List.mem_cons_of_mem _ ho)
      have hih := ih out.r out.src hhead htail
      rw [hseq, ← hrest, ← hih]
      simp only [readSeq, hex]

theorem std_nonneg_of_conforming {σ : Type} (R : Reader σ) (hR : Conforming R)
    (n : Int) (s : σ) (ps : List Buf) (hn : 0 ≤ n) (hmax : n ≤ maxInt) :
    ∀ out ∈ stdReadSeq (LimitReader R n) s ps, 0 ≤ out.r.left := by
  suffices hgen : ∀ (ps : List Buf) (r : LimitedReader σ) (src : σ), r.reader = R →
      0 ≤ r.left → r.left ≤ maxInt → ∀ out ∈ stdReadSeq r src ps, 0 ≤ out.r.left from
    hgen ps (LimitReader R n) s rfl hn hmax
  intro ps
  induction ps with
  | nil =>
    intro r src _ _ _ out hout
    simp [stdReadSeq] at hout
  | cons p ps ih =>
    intro r src hr h0 hmax out hout
    obtain ⟨o, ho, hrd, _, _, hleft, hl0⟩ := Read_conforming r src p (hr ▸ hR) h0 hmax
    rw [Read_eq_std r src p h0] at ho
    simp only [stdReadSeq, ho, List.mem_cons] at hout
    rcases hout with rfl | hmem
    · exact hl0
    · exact ih o.r o.src (hrd.trans hr) hl0 (by omega) out hmem

theorem readSeq_eq_std_of_conforming {σ : Type} (R : Reader σ) (hR : Conforming R)
    (n : Int) (s : σ) (ps : List Buf) (hn : 0 ≤ n) (hmax : n ≤ maxInt) :
    readSeq (LimitReader R n) s ps = stdReadSeq (LimitReader R n) s ps :=
  readSeq_eq_std ps (LimitReader R n) s hn
    (fun out hout => std_nonneg_of_conforming R hR n s ps hn hmax out
      (List.mem_of_mem_dropLast hout))

theorem full_length_of_observed_eq {σ : Type} (r : LimitedReader σ) (src : σ) (ps : List Buf)
    (h : (readSeq r src ps).map observed = (stdReadSeq r src ps).map observed) :
    (readSeq r src ps).length = ps.length := by
  have hl := congrArg List.length h
  rw [List.length_map, List.length_map, length_stdReadSeq] at hl
  exact hl

theorem nonneg_of_full_length {σ : Type} (ps : List Buf) :
    ∀ (r : LimitedReader σ) (src : σ), (readSeq r src ps).length = ps.length →
      (ps ≠ [] → 0 ≤ r.left) ∧
      readSeq r src ps = stdReadSeq r src ps ∧
      ∀ out ∈ (stdReadSeq r src ps).dropLast, 0 ≤ out.r.left := by
  induction ps with
  | nil =>
    intro r src _
    exact ⟨fun h => absurd rfl h, rfl, by simp [stdReadSeq]⟩
  | cons p ps ih =>
    intro r src hlen
    have h0 : 0 ≤ r.left := by
      by_contra hneg
      rw [readSeq, Read_of_neg r src p (by omega)] at hlen
      simp at hlen
    obtain ⟨out, hout⟩ := std_returns r src p
    have hex : r.Read src p = Except.ok out := by rw [Read_eq_std r src p h0, hout]
    have hlen2 : (readSeq out.r out.src ps).length = ps.length := by
      simp only [readSeq, hex, List.length_cons, add_left_inj] at hlen
      exact hlen
    obtain ⟨hne, heq, hall⟩ := ih out.r out.src hlen2
    refine ⟨fun _ => h0, ?_, ?_⟩
    · simp only [readSeq, stdReadSeq, hex, hout, heq]
    · cases ps with
      | nil => simp [stdReadSeq, hout]
      | cons p2 ps2 =>
        obtain ⟨out2, hout2⟩ := std_returns out.r out.src p2
        have hrest : stdReadSeq out.r out.src (p2 :: ps2) =
            out2 :: stdReadSeq out2.r out2.src ps2 := by
          simp only [stdReadSeq, hout2]
        have hseq : stdReadSeq r src (p :: p2 :: ps2) =
            out :: out2 :: stdReadSeq out2.r out2.src ps2 := by
          simp only [stdReadSeq, hout, hout2]
        rw [hseq, List.dropLast_cons₂]
        intro o ho
        rcases List.mem_cons.mp ho with rfl | hmem
        · exact hne (List.cons_ne_nil _ _)
        · rw [hrest] at hall
          exact hall o hmem

/-- The condition of the amended comparison is exact: the results seen by the caller agree
with those of the reader of `io.LimitReader` only if the remaining count is `≥ 0` at the
start of every call. -/
theorem std_agreement_needs_nonneg {σ : Type} (r : LimitedReader σ) (src : σ) (ps : List Buf)
    (h : (readSeq r src ps).map observed = (stdReadSeq r src ps).map observed) :
    (ps ≠ [] → 0 ≤ r.left) ∧
    ∀ out ∈ (stdReadSeq r src ps).dropLast, 0 ≤ out.r.left :=
  have hfull := nonneg_of_full_length ps r src (full_length_of_observed_eq r src ps h)
  ⟨hfull.1, hfull.2.2⟩

/-! ## Comparison with the standard library's `io.LimitReader` -/

/-- C13, as stated, fails: with limit 1 and a source that reports 5 bytes read into a
1-byte buffer, the second `Read` of the exercise's reader panics on `p[0:-4]`, while the
reader of `io.LimitReader` returns `(0, io.EOF)`; the two sequences of results differ. -/
theorem C13_differs_from_std_counterexample :
    (0 : Int) ≤ 1 ∧
    (readSeq (LimitReader overReader 1) () [zeros 1, zeros 1]).map observed =
      [(5, none, -4)] ∧
    (stdReadSeq (LimitReader overReader 1) () [zeros 1, zeros 1]).map observed =
      [(5, none, -4), (0, some GoError.EOF, -4)] ∧
    (readSeq (LimitReader overReader 1) () [zeros 1, zeros 1]).map observed ≠
      (stdReadSeq (LimitReader overReader 1) () [zeros 1, zeros 1]).map observed := by
  decide

/-- C13, amended: for every limit `n ≥ 0`, every underlying source and every sequence of
buffers in which the remaining count is `≥ 0` at the start of every call (that is, after
every call but the last), every call of the exercise's `Read` returns, and its results
(count, error, buffer, remaining count, source state, delegated calls) are those of the
reader of `io.LimitReader(r, n)`. -/
theorem C13_agrees_with_std_while_nonneg {σ : Type} (R : Reader σ) (n : Int) (s : σ)
    (ps : List Buf) (hn : 0 ≤ n)
    (hnn : ∀ out ∈ (stdReadSeq (LimitReader R n) s ps).dropLast, 0 ≤ out.r.left) :
    readSeq (LimitReader R n) s ps = stdReadSeq (LimitReader R n) s ps ∧
    (readSeq (LimitReader R n) s ps).length = ps.length ∧
    (readSeq (LimitReader R n) s ps).map observed =
      (stdReadSeq (LimitReader R n) s ps).map observed := by
  have h := readSeq_eq_std ps (LimitReader R n) s hn hnn
  refine ⟨h, ?_, ?_⟩
  · rw [h, length_stdReadSeq]
  · rw [h]

theorem C13_agrees_with_std_while_nonneg_witness :
    (0 : Int) ≤ 7 ∧
    (∀ out ∈ (stdReadSeq (LimitReader overReader 7) () [zeros 1, zeros 1]).dropLast,
      0 ≤ out.r.left) ∧
    (stdReadSeq (LimitReader overReader 7) () [zeros 1, zeros 1]).map observed =
      [(5, none, 2), (5, none, -3)] ∧
    (readSeq (LimitReader overReader 7) () [zeros 1, zeros 1]).map observed =
      (stdReadSeq (LimitReader overReader 7) () [zeros 1, zeros 1]).map observed :=
  ⟨by decide, by decide, by decide,
    (C13_agrees_with_std_while_nonneg overReader 7 () [zeros 1, zeros 1] (by decide)
      (by decide)).2.2⟩

/-! ## Facts about the hasher -/

theorem update_eq_hashStepSpec (h b : Nat) : hashbyte.update h b = hashStepSpec h b := by
  unfold hashbyte.update hashStepSpec
  rw [Nat.shiftLeft_eq]
  generalize h ^^^ b = x
  omega

theorem writeLoop_eq_foldl (bs : List Nat) :
    ∀ h : Nat, hashbyte.writeLoop h bs = bs.foldl hashStepSpec h := by
  induction bs with
  | nil => intro h; rfl
  | cons b bs ih =>
    intro h
    simp only [hashbyte.writeLoop, List.foldl_cons, ih, update_eq_hashStepSpec]

theorem writeLoop_append (s t : List Nat) :
    ∀ h : Nat, hashbyte.writeLoop h (s ++ t) = hashbyte.writeLoop (hashbyte.writeLoop h s) t := by
  induction s with
  | nil => intro h; rfl
  | cons b s ih =>
    intro h
    exact ih (hashbyte.update h b)

theorem xor_mod_two_pow (a b k : Nat) : (a ^^^ b) % 2 ^ k = (a % 2 ^ k) ^^^ (b % 2 ^ k) := by
  apply Nat.eq_of_testBit_eq
  intro i
  simp only [Nat.testBit_mod_two_pow, Nat.testBit_xor]
  by_cases h : i < k <;> simp [h]

theorem update_congr (k : Nat) (hk : k ≤ 7) (h h2 b : Nat)
    (hh : h % 2 ^ k = h2 % 2 ^ k) :
    hashbyte.update h b % 2 ^ (k + 1) = hashbyte.update h2 b % 2 ^ (k + 1) := by
  have hx : (h ^^^ b) % 2 ^ k = (h2 ^^^ b) % 2 ^ k := by
    rw [xor_mod_two_pow, xor_mod_two_pow, hh]
  unfold hashbyte.update
  generalize h ^^^ b = x at hx
  generalize h2 ^^^ b = y at hx
  interval_cases k <;> simp only [Nat.reducePow, Nat.reduceAdd] at hx ⊢ <;> omega

theorem update_lt (h b : Nat) : hashbyte.update h b < 256 := by
  unfold hashbyte.update
  omega

theorem writeLoop_lt (t : List Nat) : ∀ h : Nat, h < 256 → hashbyte.writeLoop h t < 256 := by
  induction t with
  | nil => intro h hh; exact hh
  | cons b t ih =>
    intro h _
    exact ih _ (update_lt h b)

theorem writeLoop_congr (t : List Nat) :
    ∀ (k : Nat) (h h2 : Nat), k ≤ 8 → h % 2 ^ k = h2 % 2 ^ k →
      hashbyte.writeLoop h t % 2 ^ (min 8 (k + t.length)) =
        hashbyte.writeLoop h2 t % 2 ^ (min 8 (k + t.length)) := by
  induction t with
  | nil =>
    intro k h h2 hk hh
    have : min 8 (k + ([] : List Nat).length) = k := by simp; omega
    rw [this]
    exact hh
  | cons b t ih =>
    intro k h h2 hk hh
    by_cases hk7 : k ≤ 7
    · have hstep := update_congr k hk7 h h2 b hh
      have := ih (k + 1) _ _ (by omega) hstep
      have hm : min 8 (k + (b :: t).length) = min 8 (k + 1 + t.length) := by
        simp only [List.length_cons]; omega
      rw [hm]
      exact this
    · have hk8 : k = 8 := by omega
      subst hk8
      have hh7 : h % 2 ^ 7 = h2 % 2 ^ 7 := by
        simp only [Nat.reducePow] at hh ⊢
        omega
      have hstep := update_congr 7 (le_refl _) h h2 b hh7
      have := ih 8 _ _ (le_refl _) hstep
      have hm : min 8 (8 + (b :: t).length) = min 8 (8 + t.length) := by
        simp only [List.length_cons]; omega
      rw [hm]
      exact this

theorem writeLoop_forgets (t : List Nat) (ht : 8 ≤ t.length) (h h2 : Nat) :
    hashbyte.writeLoop h t = hashbyte.writeLoop h2 t := by
  have hc := writeLoop_congr t 0 h h2 (by omega) (by simp [Nat.mod_one])
  have hm : min 8 (0 + t.length) = 8 := by omega
  rw [hm] at hc
  cases t with
  | nil => simp at ht
  | cons b t =>
    have h1 := writeLoop_lt t _ (update_lt h b)
    have h3 := writeLoop_lt t _ (update_lt h2 b)
    simp only [hashbyte.writeLoop, Nat.reducePow] at hc h1 h3 ⊢
    omega

/-! ## Claims on the hasher -/

/-- C15: for every hasher state `h` and every byte slice, `Write` returns
`(len(bytes), nil)` and sets `result` to the left fold over the bytes, in order, of the
step `(((h xor b) << 1) + (b mod 2)) mod 256`; `Hash` returns the current `result` (it has
a value receiver, so the hasher is unchanged), and `New(init).Hash() = init`. -/
theorem C15_write_is_left_fold (h : hashbyte.hash) (bytes : Buf) (init : Byte) :
    (h.Write bytes).2 = ((bytes.length : Int), none) ∧
    (h.Write bytes).1.result = bytes.foldl hashStepSpec h.result ∧
    (h.Write bytes).1.Hash = bytes.foldl hashStepSpec h.result ∧
    h.Hash = h.result ∧
    (hashbyte.New init).Hash = init := by
  refine ⟨rfl, ?_, ?_, rfl, rfl⟩
  · exact writeLoop_eq_foldl bytes h.result
  · exact writeLoop_eq_foldl bytes h.result

/-- C19: for all initial values `i1`, `i2` and all byte sequences `s1`, `s2` and `t` with
`len(t) ≥ 8`, the hasher started at `i1` after `Write(s1)` then `Write(t)` and the hasher
started at `i2` after `Write(s2)` then `Write(t)` return the same `Hash()`; that value is
the hash of the last 8 bytes of `t` alone, written to a hasher started at 0. -/
theorem C19_hash_depends_on_last_eight (i1 i2 : Byte) (s1 s2 t : Buf) (ht : 8 ≤ t.length) :
    ((((hashbyte.New i1).Write s1).1.Write t).1.Hash =
      (((hashbyte.New i2).Write s2).1.Write t).1.Hash) ∧
    ((((hashbyte.New i1).Write s1).1.Write t).1.Hash =
      ((hashbyte.New 0).Write (t.drop (t.length - 8))).1.Hash) := by
  constructor
  · exact writeLoop_forgets t ht _ _
  · show hashbyte.writeLoop (hashbyte.writeLoop i1 s1) t =
      hashbyte.writeLoop 0 (t.drop (t.length - 8))
    conv_lhs => rw [← List.take_append_drop (t.length - 8) t, writeLoop_append]
    apply writeLoop_forgets
    rw [List.length_drop]
    omega

theorem C19_hash_depends_on_last_eight_witness :
    8 ≤ ([1, 2, 3, 4, 5, 6, 7, 8] : Buf).length ∧
    ((((hashbyte.New 77).Write [9]).1.Write [1, 2, 3, 4, 5, 6, 7, 8]).1.Hash =
      (((hashbyte.New 200).Write []).1.Write [1, 2, 3, 4, 5, 6, 7, 8]).1.Hash) :=
  ⟨by decide, (C19_hash_depends_on_last_eight 77 200 [9] [] [1, 2, 3, 4, 5, 6, 7, 8]
    (by decide)).1⟩

/-! ## The task-1 generator -/

theorem length_putUint64 (v : Nat) : (putUint64 v).length = 8 := by
  simp [putUint64]

theorem generatorLoop_fuel_enough {ρ : Type} (rnd : RandSource ρ) (fuel : Nat) :
    ∀ (i : Nat) (bytes : Buf) (g : ρ), bytes.length ≤ i + 8 * fuel →
      generatorLoop rnd (fuel + 1) i bytes g = generatorLoop rnd fuel i bytes g := by
  induction fuel with
  | zero =>
    intro i bytes g h
    have hg : ¬ i + 8 < bytes.length := by omega
    simp [generatorLoop, hg]
  | succ fuel ih =>
    intro i bytes g h
    by_cases hg : i + 8 < bytes.length
    · rw [generatorLoop, if_pos hg]
      conv_rhs => rw [generatorLoop, if_pos hg]
      apply ih
      simp only [List.length_append, List.length_take, List.length_drop, length_putUint64]
      omega
    · rw [generatorLoop, if_neg hg]
      conv_rhs => rw [generatorLoop, if_neg hg]

theorem generatorLoop_last_chunk {ρ : Type} (rnd : RandSource ρ) (fuel : Nat) :
    ∀ (i : Nat) (bytes : Buf) (g : ρ), 8 ∣ i → 8 ∣ bytes.length →
      (generatorLoop rnd fuel i bytes g).1.length = bytes.length ∧
      (generatorLoop rnd fuel i bytes g).1.drop (bytes.length - 8)
        = bytes.drop (bytes.length - 8) := by
  induction fuel with
  | zero =>
    intro i bytes g _ _
    exact ⟨rfl, rfl⟩
  | succ fuel ih =>
    intro i bytes g hi hl
    by_cases hg : i + 8 < bytes.length
    · rw [generatorLoop, if_pos hg]
      have hlen : (bytes.take i ++ putUint64 (uint64 (rnd.Int63 g).1)
          ++ bytes.drop (i + 8)).length = bytes.length := by
        simp only [List.length_append, List.length_take, List.length_drop, length_putUint64]
        omega
      obtain ⟨h1, h2⟩ := ih (i + 8)
        (bytes.take i ++ putUint64 (uint64 (rnd.Int63 g).1) ++ bytes.drop (i + 8))
        (rnd.Int63 g).2 (by omega) (by rw [hlen]; exact hl)
      rw [hlen] at h1 h2
      refine ⟨h1, ?_⟩
      rw [h2, List.drop_append_eq_append_drop, List.drop_of_length_le, List.drop_drop]
      · simp only [List.length_append, List.length_take, length_putUint64, List.nil_append]
        congr 1
        omega
      · simp only [List.length_append, List.length_take, length_putUint64]
        omega
    · rw [generatorLoop, if_neg hg]
      exact ⟨rfl, rfl⟩

/-- On every slice whose length is a multiple of 8, the task-1 `Read` leaves the last 8
bytes as they were, while reporting `len(bytes)` bytes read. -/
theorem generator_Read_last_chunk_unwritten {ρ : Type} (rnd : RandSource ρ) (g : ρ)
    (bytes : Buf) (h8 : 8 ∣ bytes.length) :
    (generator.Read rnd g bytes).1.1.drop (bytes.length - 8) = bytes.drop (bytes.length - 8) ∧
    (generator.Read rnd g bytes).2 = ((bytes.length : Int), none) :=
  ⟨(generatorLoop_last_chunk rnd bytes.length 0 bytes g (by omega) h8).2, rfl⟩

/-! ## Claim on the task-1 generator -/

/-- C14, evaluated on the code: on a slice of 8 zero bytes the task-1 `Read` runs no
iteration of its loop (`0+8 < 8` is false), draws no value, leaves the 8 bytes unwritten
and returns `(8, nil)`, where the claim requires the bytes `1, 2, ..., 8` of the first
value drawn; on 16 zero bytes only the first 8 bytes are written, the second chunk stays
unwritten. -/
theorem C14_generator_leaves_last_chunk :
    generator.Read listSource [578437695752307201, 7] (zeros 8) =
      ((zeros 8, [578437695752307201, 7]), 8, none) ∧
    expectedFill listSource 1 [578437695752307201, 7] = [1, 2, 3, 4, 5, 6, 7, 8] ∧
    generator.Read listSource [578437695752307201, 7] (zeros 16) =
      (([1, 2, 3, 4, 5, 6, 7, 8, 0, 0, 0, 0, 0, 0, 0, 0], [7]), 16, none) ∧
    expectedFill listSource 2 [578437695752307201, 7] =
      [1, 2, 3, 4, 5, 6, 7, 8, 7, 0, 0, 0, 0, 0, 0, 0] := by
  decide

end GoBasic
